import Mathlib

/-!
Shallow embedding of `src/anumhist.c` (array of numerical histograms for
two-tailed Monte Carlo bounds).

Modelling conventions:
* C `double` values are modelled by exact rationals.  A `double` that may be
  non-finite (the NaN/Inf entries produced by the unguarded division by zero
  in `normalizepdf`) is modelled by `Option ℚ`, with `none` standing for a
  non-finite value.  Arithmetic on `none` is absorbing (NaN propagation) and
  every ordered comparison against `none` is false, exactly as IEEE
  comparisons on NaN are.
* The flat `elems * nbins` C buffer is modelled as a list of `elems` rows of
  `nbins` entries each; `getpdfptr` becomes row selection.
* C `rint` (round to nearest, ties to even — the default rounding mode) is
  modelled by `rint` below.
* The C functions return `NULL` with a Python exception set and leave the
  structure untouched on error; this is modelled by returning the unchanged
  state paired with `some errorMessage`.
-/

-- Allow the kernel to evaluate rational arithmetic in `decide` proofs.
attribute [local semireducible] Rat.add Rat.mul Rat.sub Rat.inv

/-- A C `double` that may be non-finite: `none` models NaN/Inf. -/
abbrev EDouble := Option ℚ

/-- Addition of possibly non-finite doubles (NaN propagates). -/
def eadd : EDouble → EDouble → EDouble
  | some x, some y => some (x + y)
  | _, _ => none

/-- The C comparison `p > thr` for a possibly non-finite `p` and a finite
threshold: any comparison involving NaN is false. -/
def egt (a : EDouble) (thr : ℚ) : Bool :=
  match a with
  | some x => decide (thr < x)
  | none => false

/-- The C division `x / N` of a double by an `int`: division by zero produces
a non-finite value (`0/0` is NaN, `x/0` is ±Inf), modelled as `none`. -/
def ediv (a : EDouble) (n : ℤ) : EDouble :=
  match a with
  | some x => if n = 0 then none else some (x / (n : ℚ))
  | none => none

/-- The C cast `(int)x` of a finite double: truncation toward zero.
`Int.div` is T-division, matching C integer conversion. -/
def cint (q : ℚ) : ℤ :=
  Int.tdiv q.num (q.den : ℤ)

/-- C `rint` under the default rounding mode: round to nearest, ties to the
even integer. -/
def rint (q : ℚ) : ℤ :=
  if q - ⌊q⌋ < 1/2 then ⌊q⌋
  else if (1:ℚ)/2 < q - ⌊q⌋ then ⌊q⌋ + 1
  else if ⌊q⌋ % 2 = 0 then ⌊q⌋ else ⌊q⌋ + 1

/-- The `NHArray` struct of `anumhist.c`. -/
structure NHArray where
  xl : ℚ
  xu : ℚ
  nbins : ℕ
  nbinsm1 : ℤ
  deltax : ℚ
  elems : ℕ
  dbuffer : List (List EDouble)
  normalized : Bool
  deriving DecidableEq, Repr

/-- The constructor `CreateNHArray` allocates the zeroed `elems × nbins` buffer and derives
`nbinsm1` and `deltax` (`(xu - xl)/(nbins - 1)`). -/
def CreateNHArray (xl xu : ℚ) (nbins elems : ℕ) : NHArray :=
  { xl := xl
    xu := xu
    nbins := nbins
    nbinsm1 := (nbins : ℤ) - 1
    deltax := (xu - xl) / ((nbins : ℚ) - 1)
    elems := elems
    dbuffer := List.replicate elems (List.replicate nbins (some 0))
    normalized := false }

/-- In-place update of the element at position `i` of a list (a list-model of
writing through a C pointer); out of range, nothing changes. -/
def setIdx {α : Type} : List α → ℕ → (α → α) → List α
  | [], _, _ => []
  | a :: l, 0, f => f a :: l
  | a :: l, n + 1, f => a :: setIdx l n f

/-- The row selector `getpdfptr` returns row `i` of the buffer. -/
def rowOf (h : NHArray) (i : ℕ) : List EDouble :=
  h.dbuffer.getD i []

/-- The bin index computed by `updatevalue` (lines 181–183):
`rint((val - xl)/deltax)` clamped from below by `0`, then from above by
`nbinsm1`. -/
def binindex (h : NHArray) (val : ℚ) : ℤ :=
  let nbin0 : ℤ := rint ((val - h.xl) / h.deltax)
  let nbin1 : ℤ := if nbin0 < 0 then 0 else nbin0
  if h.nbinsm1 < nbin1 then h.nbinsm1 else nbin1

/-- The function `updatevalue`: increment the clamped bin of row `i` by one. -/
def updatevalue (h : NHArray) (i : ℕ) (val : ℚ) : NHArray :=
  { h with
    dbuffer := setIdx h.dbuffer i
      (fun row => setIdx row (binindex h val).toNat (fun e => eadd e (some 1))) }

/-- The accumulation `Nx += thepdf[nbin]` of `normalizepdf`: `Nx` is a C
`int`, so each addition goes through a double-to-int conversion.  Adding a
non-finite entry to an `int` is undefined in C and unreachable here (the
buffer holds integer counts whenever `normalizepdf` runs); it is modelled as
leaving the accumulator unchanged. -/
def sumNx : ℤ → List EDouble → ℤ
  | n, [] => n
  | n, e :: l => sumNx (match e with
      | some q => cint ((n : ℚ) + q)
      | none => n) l

/-- The function `normalizepdf`: divide every entry of row `i` by the row's integer count
sum (no guard against a zero sum) and set the `normalized` flag. -/
def normalizepdf (h : NHArray) (i : ℕ) : NHArray :=
  { h with
    dbuffer := setIdx h.dbuffer i
      (fun row => row.map (fun e => ediv e (sumNx 0 row)))
    normalized := true }

/-- The scan loop of `getrange` (lines 222–233).  `p` is the running mass,
`gotlow` the flag for the already-recorded lower bound; `xl`/`xu` carry the
current values of the output variables (uninitialised/stale on entry, exactly
as the C locals of `GetXRange` are). -/
def getrangeAux (xlp dx pl pu : ℚ) :
    List EDouble → ℕ → EDouble → Bool → EDouble → EDouble → EDouble × EDouble
  | [], _, _, _, xl, xu => (xl, xu)
  | e :: rest, nbin, p, gotlow, xl, xu =>
    if egt (eadd p e) pu then
      (if egt (eadd p e) pl && !gotlow then
          some (xlp + dx * ((nbin : ℤ) - 1)) else xl,
       some (xlp + dx * (nbin : ℤ)))
    else
      getrangeAux xlp dx pl pu rest (nbin + 1) (eadd p e)
        (gotlow || egt (eadd p e) pl)
        (if egt (eadd p e) pl && !gotlow then
            some (xlp + dx * ((nbin : ℤ) - 1)) else xl)
        xu

/-- The function `getrange`: scan row `i` left to right from mass `0` with the lower bound
not yet found; `xl0`/`xu0` are the values the output variables hold when the
call starts. -/
def getrange (h : NHArray) (i : ℕ) (pl pu : ℚ) (xl0 xu0 : EDouble) :
    EDouble × EDouble :=
  getrangeAux h.xl h.deltax pl pu (rowOf h i) 0 (some 0) false xl0 xu0

/-- The one-dimensional numeric array handed to `UpdateNHArray`: its number
of dimensions and its data. -/
structure PyArr where
  nd : ℕ
  data : List ℚ
  deriving DecidableEq, Repr

/-- The update loop of `UpdateNHArray` (lines 273–276): one `updatevalue` per
variable, in order. -/
def updateAll : NHArray → ℕ → List ℚ → NHArray
  | h, _, [] => h
  | h, i, v :: vs => updateAll (updatevalue h i v) (i + 1) vs

/-- The function `UpdateNHArray`: reject if already normalized, if the input array is not
one-dimensional, or if its length differs from `elems`; otherwise accumulate
one sample into every variable's histogram. -/
def UpdateNHArray (h : NHArray) (a : PyArr) : NHArray × Option String :=
  if h.normalized then
    (h, some "The histogram array has already been normalized, you can not update it")
  else if a.nd ≠ 1 then
    (h, some "Input array must be linear.")
  else if a.data.length ≠ h.elems then
    (h, some "Input array dimensions and NHArray dimensions do not match.")
  else
    (updateAll h 0 a.data, none)

/-- The normalization loop of `GetXRange` (lines 296–297): `normalizepdf` on
`k` successive rows starting at row `i`. -/
def normFrom : NHArray → ℕ → ℕ → NHArray
  | h, _, 0 => h
  | h, i, k + 1 => normFrom (normalizepdf h i) (i + 1) k

/-- The result loop of `GetXRange` (lines 309–315): one `getrange` per
variable, the C locals `xl`, `xu` carried from one iteration to the next. -/
def scanRows (h : NHArray) (pl pu : ℚ) :
    ℕ → ℕ → EDouble → EDouble → List (EDouble × EDouble)
  | _, 0, _, _ => []
  | i, k + 1, xl, xu =>
    getrange h i pl pu xl xu ::
      scanRows h pl pu (i + 1) k
        (getrange h i pl pu xl xu).1 (getrange h i pl pu xl xu).2

/-- The function `GetXRange`: normalize every row on the first call, then extract one
`(xl, xu)` pair per variable with `pl = prob/2` and `pu = 1 - pl`.
`xl0`/`xu0` model the indeterminate initial contents of the C locals `xl`,
`xu`. -/
def GetXRange (h : NHArray) (prob : ℚ) (xl0 xu0 : EDouble) :
    NHArray × List (EDouble × EDouble) :=
  let h1 := if h.normalized then h
            else { normFrom h 0 h.elems with normalized := true }
  scanRows h1 (prob / 2) (1 - prob / 2) 0 h1.elems xl0 xu0 |> (h1, ·)

/-- The accessor `GetDeltaX` returns the bin width. -/
def GetDeltaX (h : NHArray) : ℚ :=
  h.deltax

/-- A sequence of `UpdateNHArray` calls, stopping at the first failure. -/
def applyUpdates : NHArray → List PyArr → NHArray × Option String
  | h, [] => (h, none)
  | h, a :: rest =>
    match UpdateNHArray h a with
    | (h', none) => applyUpdates h' rest
    | (h', some e) => (h', some e)

/-- Running mass after the scan has consumed bins `0..j` starting from
mass `p`. -/
def cacc (p : EDouble) (row : List EDouble) (j : ℕ) : EDouble :=
  (row.take (j + 1)).foldl eadd p

/-- Index `j` is the first bin at which the running mass (from `0`) exceeds the
threshold `thr`. -/
def IsFirstCross (thr : ℚ) (row : List EDouble) (j : ℕ) : Prop :=
  j < row.length ∧ egt (cacc (some 0) row j) thr = true ∧
    ∀ k, k < j → egt (cacc (some 0) row k) thr = false

/-- Row sum, accumulated left to right as the C loops do. -/
def esum (row : List EDouble) : EDouble :=
  row.foldl eadd (some 0)

instance (thr : ℚ) (row : List EDouble) (j : ℕ) :
    Decidable (IsFirstCross thr row j) := by
  unfold IsFirstCross
  infer_instance

/-! ### Lemmas about the running mass and the scan loop -/

theorem cacc_cons_zero (p e : EDouble) (rest : List EDouble) :
    cacc p (e :: rest) 0 = eadd p e := rfl

theorem cacc_cons_succ (p e : EDouble) (rest : List EDouble) (j : ℕ) :
    cacc p (e :: rest) (j + 1) = cacc (eadd p e) rest j := rfl

theorem egt_of_egt_of_le {a : EDouble} {pl pu : ℚ} (hle : pl ≤ pu)
    (h : egt a pu = true) : egt a pl = true := by
  cases a with
  | none => simp [egt] at h
  | some x =>
    simp only [egt, decide_eq_true_eq] at h ⊢
    linarith

/-- Once the lower bound has been recorded, the scan never rewrites it. -/
theorem getrangeAux_gotlow_fst (xlp dx pl pu : ℚ) :
    ∀ (row : List EDouble) (nbin : ℕ) (p xl xu : EDouble),
      (getrangeAux xlp dx pl pu row nbin p true xl xu).1 = xl := by
  intro row
  induction row with
  | nil => intro nbin p xl xu; rfl
  | cons e rest ih =>
    intro nbin p xl xu
    by_cases h : egt (eadd p e) pu
    · simp [getrangeAux, h]
    · simp only [getrangeAux, h, Bool.not_true, Bool.and_false, if_false,
        Bool.false_eq_true, Bool.true_or]
      exact ih (nbin + 1) (eadd p e) xl xu

/-- With the lower bound already recorded, the scan breaks at the first bin
whose running mass exceeds `pu` and records the upper bound there. -/
theorem getrangeAux_gotlow_break (xlp dx pl pu : ℚ) :
    ∀ (row : List EDouble) (jH nbin : ℕ) (p xl xu : EDouble),
      jH < row.length →
      egt (cacc p row jH) pu = true →
      (∀ k, k < jH → egt (cacc p row k) pu = false) →
      getrangeAux xlp dx pl pu row nbin p true xl xu
        = (xl, some (xlp + dx * ((nbin : ℤ) + (jH : ℤ)))) := by
  intro row
  induction row with
  | nil =>
    intro jH nbin p xl xu hlen
    exact absurd hlen (by simp)
  | cons e rest ih =>
    intro jH nbin p xl xu hlen hc hmin
    cases jH with
    | zero =>
      rw [cacc_cons_zero] at hc
      simp [getrangeAux, hc]
    | succ j =>
      have h0 : egt (eadd p e) pu = false := by
        have := hmin 0 (Nat.succ_pos j)
        rwa [cacc_cons_zero] at this
      rw [cacc_cons_succ] at hc
      simp only [getrangeAux, h0, Bool.false_eq_true, if_false,
        Bool.not_true, Bool.and_false, Bool.true_or]
      rw [ih j (nbin + 1) (eadd p e) xl xu (by simpa using hlen) hc
        (fun k hk => by
          have := hmin (k + 1) (by omega)
          rwa [cacc_cons_succ] at this)]
      congr 2
      push_cast
      ring

/-- The scan that never sees its running mass exceed `pu` leaves the upper
bound variable untouched. -/
theorem getrangeAux_nocross (xlp dx pl pu : ℚ) :
    ∀ (row : List EDouble) (nbin : ℕ) (p : EDouble) (g : Bool) (xl xu : EDouble),
      (∀ k, k < row.length → egt (cacc p row k) pu = false) →
      (getrangeAux xlp dx pl pu row nbin p g xl xu).2 = xu := by
  intro row
  induction row with
  | nil => intro nbin p g xl xu _; rfl
  | cons e rest ih =>
    intro nbin p g xl xu hno
    have h0 : egt (eadd p e) pu = false := by
      have := hno 0 (by simp)
      rwa [cacc_cons_zero] at this
    simp only [getrangeAux, h0, Bool.false_eq_true, if_false]
    exact ih (nbin + 1) (eadd p e) _ _ xu
      (fun k hk => by
        have := hno (k + 1) (by simpa using hk)
        rwa [cacc_cons_succ] at this)

/-! ### List update and rounding lemmas -/

theorem setIdx_length {α : Type} (f : α → α) :
    ∀ (l : List α) (i : ℕ), (setIdx l i f).length = l.length := by
  intro l
  induction l with
  | nil => intro i; rfl
  | cons a t ih =>
    intro i
    cases i with
    | zero => rfl
    | succ n => simpa [setIdx] using ih n

theorem getD_setIdx_eq {α : Type} (f : α → α) (d : α) :
    ∀ (l : List α) (i : ℕ), i < l.length →
      (setIdx l i f).getD i d = f (l.getD i d) := by
  intro l
  induction l with
  | nil => intro i h; exact absurd h (by simp)
  | cons a t ih =>
    intro i h
    cases i with
    | zero => rfl
    | succ n => simpa [setIdx] using ih n (by simpa using h)

theorem getD_setIdx_ne {α : Type} (f : α → α) (d : α) :
    ∀ (l : List α) (i j : ℕ), i ≠ j →
      (setIdx l i f).getD j d = l.getD j d := by
  intro l
  induction l with
  | nil => intro i j _; cases i <;> rfl
  | cons a t ih =>
    intro i j hne
    cases i with
    | zero =>
      cases j with
      | zero => exact absurd rfl hne
      | succ m => rfl
    | succ n =>
      cases j with
      | zero => rfl
      | succ m => simpa [setIdx] using ih n m (by omega)

/-- Rounding with `rint` moves at most half a unit up. -/
theorem rint_le_add_half (q : ℚ) : (rint q : ℚ) ≤ q + 1/2 := by
  have h0 : ((⌊q⌋ : ℚ)) ≤ q := Int.floor_le q
  have h1 : q < (⌊q⌋ : ℚ) + 1 := Int.lt_floor_add_one q
  unfold rint
  split_ifs <;> push_cast <;> linarith

/-- Rounding with `rint` moves at most half a unit down. -/
theorem sub_half_le_rint (q : ℚ) : q - 1/2 ≤ (rint q : ℚ) := by
  have h0 : ((⌊q⌋ : ℚ)) ≤ q := Int.floor_le q
  have h1 : q < (⌊q⌋ : ℚ) + 1 := Int.lt_floor_add_one q
  unfold rint
  split_ifs <;> push_cast <;> linarith

/-- Integers are fixed by `rint`. -/
theorem rint_intCast (m : ℤ) : rint (m : ℚ) = m := by
  unfold rint
  rw [Int.floor_intCast]
  norm_num

/-! ### Structure-preservation and result-indexing lemmas -/

theorem normFrom_xl : ∀ (k : ℕ) (h : NHArray) (i : ℕ),
    (normFrom h i k).xl = h.xl := by
  intro k
  induction k with
  | zero => intro h i; rfl
  | succ k ih => intro h i; simpa [normFrom, normalizepdf] using ih ..

theorem normFrom_deltax : ∀ (k : ℕ) (h : NHArray) (i : ℕ),
    (normFrom h i k).deltax = h.deltax := by
  intro k
  induction k with
  | zero => intro h i; rfl
  | succ k ih => intro h i; simpa [normFrom, normalizepdf] using ih ..

theorem normFrom_elems : ∀ (k : ℕ) (h : NHArray) (i : ℕ),
    (normFrom h i k).elems = h.elems := by
  intro k
  induction k with
  | zero => intro h i; rfl
  | succ k ih => intro h i; simpa [normFrom, normalizepdf] using ih ..

theorem GetXRange_fst_normalized (h : NHArray) (prob : ℚ) (xl0 xu0 : EDouble) :
    (GetXRange h prob xl0 xu0).1.normalized = true := by
  by_cases hn : h.normalized = true <;> simp [GetXRange, hn]

theorem GetXRange_fst_xl (h : NHArray) (prob : ℚ) (xl0 xu0 : EDouble) :
    (GetXRange h prob xl0 xu0).1.xl = h.xl := by
  by_cases hn : h.normalized = true <;> simp [GetXRange, hn, normFrom_xl]

theorem GetXRange_fst_deltax (h : NHArray) (prob : ℚ) (xl0 xu0 : EDouble) :
    (GetXRange h prob xl0 xu0).1.deltax = h.deltax := by
  by_cases hn : h.normalized = true <;> simp [GetXRange, hn, normFrom_deltax]

theorem GetXRange_fst_elems (h : NHArray) (prob : ℚ) (xl0 xu0 : EDouble) :
    (GetXRange h prob xl0 xu0).1.elems = h.elems := by
  by_cases hn : h.normalized = true <;> simp [GetXRange, hn, normFrom_elems]

/-- The result list of `GetXRange` is the scan of the normalized state. -/
theorem GetXRange_snd (h : NHArray) (prob : ℚ) (xl0 xu0 : EDouble) :
    (GetXRange h prob xl0 xu0).2
      = scanRows (GetXRange h prob xl0 xu0).1 (prob / 2) (1 - prob / 2) 0
          ((GetXRange h prob xl0 xu0).1.elems) xl0 xu0 := rfl

theorem scanRows_getD_zero (h : NHArray) (pl pu : ℚ) :
    ∀ (k i0 : ℕ) (xl xu : EDouble), 0 < k →
      (scanRows h pl pu i0 k xl xu).getD 0 (none, none)
        = getrange h i0 pl pu xl xu := by
  intro k i0 xl xu hk
  cases k with
  | zero => omega
  | succ k' => rfl

theorem scanRows_getD_succ (h : NHArray) (pl pu : ℚ) :
    ∀ (k i0 m : ℕ) (xl xu : EDouble), m + 1 < k →
      (scanRows h pl pu i0 k xl xu).getD (m + 1) (none, none)
        = getrange h (i0 + m + 1) pl pu
            ((scanRows h pl pu i0 k xl xu).getD m (none, none)).1
            ((scanRows h pl pu i0 k xl xu).getD m (none, none)).2 := by
  intro k
  induction k with
  | zero => intro i0 m xl xu hm; omega
  | succ k' ih =>
    intro i0 m xl xu hm
    cases m with
    | zero =>
      show (scanRows h pl pu (i0 + 1) k' _ _).getD 0 (none, none) = _
      rw [scanRows_getD_zero h pl pu k' (i0 + 1) _ _ (by omega),
        scanRows_getD_zero h pl pu (k' + 1) i0 _ _ (by omega)]
    | succ m' =>
      show (scanRows h pl pu (i0 + 1) k' _ _).getD (m' + 1) (none, none) = _
      rw [ih (i0 + 1) m' _ _ (by omega)]
      have : i0 + 1 + m' + 1 = i0 + (m' + 1) + 1 := by omega
      rw [this]
      rfl

/-- Full characterisation of one scan that crosses both thresholds: the
lower bound is recorded one bin left of the first `pl` crossing, the upper
bound at the first `pu` crossing, and the former crossing is no later. -/
theorem getrangeAux_spec (xlp dx pl pu : ℚ) (hple : pl ≤ pu) :
    ∀ (row : List EDouble) (jL jH nbin : ℕ) (p xl xu : EDouble),
      jH < row.length →
      egt (cacc p row jH) pu = true →
      (∀ k, k < jH → egt (cacc p row k) pu = false) →
      egt (cacc p row jL) pl = true →
      (∀ k, k < jL → egt (cacc p row k) pl = false) →
      jL ≤ jH ∧
        getrangeAux xlp dx pl pu row nbin p false xl xu
          = (some (xlp + dx * ((nbin : ℤ) + (jL : ℤ) - 1)),
             some (xlp + dx * ((nbin : ℤ) + (jH : ℤ)))) := by
  intro row
  induction row with
  | nil =>
    intro jL jH nbin p xl xu hlen
    exact absurd hlen (by simp)
  | cons e rest ih =>
    intro jL jH nbin p xl xu hlen hcH hminH hcL hminL
    have hL0 : jL = 0 ∨ egt (eadd p e) pl = false := by
      cases jL with
      | zero => exact Or.inl rfl
      | succ l =>
        refine Or.inr ?_
        have := hminL 0 (Nat.succ_pos l)
        rwa [cacc_cons_zero] at this
    by_cases hu : egt (eadd p e) pu
    · -- the scan breaks at bin `nbin`: both first crossings are at offset 0
      have hH0 : jH = 0 := by
        by_contra hne
        have := hminH 0 (Nat.pos_of_ne_zero hne)
        rw [cacc_cons_zero] at this
        rw [this] at hu
        exact Bool.false_ne_true hu
      have hpl : egt (eadd p e) pl = true := egt_of_egt_of_le hple hu
      have hL0' : jL = 0 := by
        rcases hL0 with h | h
        · exact h
        · rw [h] at hpl; exact absurd hpl Bool.false_ne_true
      subst hH0; subst hL0'
      refine ⟨le_refl 0, ?_⟩
      simp [getrangeAux, hu, hpl]
    · -- no break yet: the first `pu` crossing is strictly later
      have hHpos : 0 < jH := by
        rcases Nat.eq_zero_or_pos jH with h | h
        · subst h; rw [cacc_cons_zero] at hcH
          rw [hcH] at hu; exact absurd rfl hu
        · exact h
      obtain ⟨j, rfl⟩ : ∃ j, jH = j + 1 := ⟨jH - 1, by omega⟩
      rw [cacc_cons_succ] at hcH
      have hminH' : ∀ k, k < j → egt (cacc (eadd p e) rest k) pu = false :=
        fun k hk => by
          have := hminH (k + 1) (by omega)
          rwa [cacc_cons_succ] at this
      have hlen' : j < rest.length := by simpa using hlen
      rcases hL0 with hL0 | hple0
      · -- the lower bound is recorded right now, at offset 0
        subst hL0
        rw [cacc_cons_zero] at hcL
        simp only [getrangeAux, hu, Bool.false_eq_true, if_false, hcL,
          Bool.not_false, Bool.and_true, if_true, Bool.false_or]
        refine ⟨Nat.zero_le _, ?_⟩
        rw [getrangeAux_gotlow_break xlp dx pl pu rest j (nbin + 1)
          (eadd p e) _ xu hlen' hcH hminH']
        simp only [Prod.mk.injEq, Option.some.injEq]
        constructor <;> (push_cast; ring)
      · -- neither threshold crossed yet: recurse with both offsets shifted
        have hLpos : 0 < jL := by
          rcases Nat.eq_zero_or_pos jL with h | h
          · subst h; rw [cacc_cons_zero] at hcL
            rw [hcL] at hple0; simp at hple0
          · exact h
        obtain ⟨l, rfl⟩ : ∃ l, jL = l + 1 := ⟨jL - 1, by omega⟩
        rw [cacc_cons_succ] at hcL
        have hminL' : ∀ k, k < l → egt (cacc (eadd p e) rest k) pl = false :=
          fun k hk => by
            have := hminL (k + 1) (by omega)
            rwa [cacc_cons_succ] at this
        obtain ⟨hle', heq⟩ := ih l j (nbin + 1) (eadd p e) xl xu
          hlen' hcH hminH' hcL hminL'
        refine ⟨by omega, ?_⟩
        simp only [getrangeAux, hu, Bool.false_eq_true, if_false, hple0,
          Bool.false_and, Bool.and_false, Bool.false_or]
        rw [heq]
        simp only [Prod.mk.injEq, Option.some.injEq]
        constructor <;> (push_cast; ring)

/-- If the running mass already exceeds `pl` at bin 0, the scan records the
lower bound `xlp - dx` there, and it survives to the end of the scan. -/
theorem getrangeAux_fst_firstbin (xlp dx pl pu : ℚ) (e : EDouble)
    (rest : List EDouble) (hcross : egt (eadd (some 0) e) pl = true)
    (a b : EDouble) :
    (getrangeAux xlp dx pl pu (e :: rest) 0 (some 0) false a b).1
      = some (xlp - dx) := by
  have hval : (if egt (eadd (some 0) e) pl && !false then
      some (xlp + dx * (((0 : ℕ) : ℤ) - 1)) else a) = some (xlp - dx) := by
    rw [hcross]
    norm_num
    ring
  by_cases hu : egt (eadd (some 0) e) pu
  · simp only [getrangeAux, hu, if_true]
    rw [hval]
  · simp only [getrangeAux, hu, Bool.false_eq_true, if_false]
    rw [hval, hcross]
    simp only [Bool.false_or]
    exact getrangeAux_gotlow_fst xlp dx pl pu rest 1 (eadd (some 0) e) _ b

/-! ### Claim theorems: the quantile scan -/

/-- C1: `getRange` splits `tailProbability` into `pLow = prob/2` and
`pHigh = 1 - pLow`; scanning a variable's bins left to right while
accumulating the running mass, it records the lower bound
`xl + deltax * (crossingBin - 1)` at the first bin whose mass exceeds
`pLow`, records the upper bound `xl + deltax * crossingBin` at the first bin
whose mass exceeds `pHigh` and stops there, the lower crossing being no
later than the upper one. -/
theorem getrange_scan_characterization (h : NHArray) (i : ℕ) (prob : ℚ)
    (xl0 xu0 : EDouble) (jL jH : ℕ)
    (hprob : prob ≤ 1)
    (hL : IsFirstCross (prob / 2) (rowOf h i) jL)
    (hH : IsFirstCross (1 - prob / 2) (rowOf h i) jH) :
    jL ≤ jH ∧
      getrange h i (prob / 2) (1 - prob / 2) xl0 xu0
        = (some (h.xl + h.deltax * ((jL : ℤ) - 1)),
           some (h.xl + h.deltax * (jH : ℤ))) := by
  obtain ⟨hlenL, hcL, hminL⟩ := hL
  obtain ⟨hlenH, hcH, hminH⟩ := hH
  have hple : prob / 2 ≤ 1 - prob / 2 := by linarith
  obtain ⟨hle, heq⟩ := getrangeAux_spec h.xl h.deltax (prob / 2) (1 - prob / 2)
    hple (rowOf h i) jL jH 0 (some 0) xl0 xu0 hlenH hcH hminH hcL hminL
  refine ⟨hle, ?_⟩
  rw [getrange, heq]
  simp only [Prod.mk.injEq, Option.some.injEq]
  constructor <;> (push_cast; ring)

/-- C1 witness: the concrete 11-bin normalized histogram of the spec's
scenario, whose mass first exceeds both `0.1` and `0.9` at bin 5. -/
theorem getrange_scan_characterization_witness :
    (5 : ℕ) ≤ 5 ∧
      getrange (⟨0, 10, 11, 10, 1, 1,
          [[some (1/11), some 0, some 0, some 0, some 0, some (10/11),
            some 0, some 0, some 0, some 0, some 0]], true⟩ : NHArray)
          0 ((1/5) / 2) (1 - (1/5) / 2) none none
        = (some 4, some 5) := by
  exact getrange_scan_characterization _ 0 (1/5) none none 5 5
    (by norm_num) (by decide) (by decide)

/-- C2: from `create(0, 10, 11, 1)` (bin width 1), ten accumulations of
`[5.0]` and one of `[0.0]` all succeed, and `getRange(0.2)` returns
`[[4.0, 5.0]]` whatever the initial contents of the output locals are. -/
theorem two_tailed_concrete_scenario (xl0 xu0 : EDouble) :
    (applyUpdates (CreateNHArray 0 10 11 1)
      (List.replicate 10 ⟨1, [5]⟩ ++ [⟨1, [0]⟩])).2 = none ∧
    (GetXRange (applyUpdates (CreateNHArray 0 10 11 1)
      (List.replicate 10 ⟨1, [5]⟩ ++ [⟨1, [0]⟩])).1 (1/5) xl0 xu0).2
      = [(some 4, some 5)] := by
  refine ⟨by decide, ?_⟩
  have hfst : (GetXRange (applyUpdates (CreateNHArray 0 10 11 1)
      (List.replicate 10 ⟨1, [5]⟩ ++ [⟨1, [0]⟩])).1 (1/5) xl0 xu0).1
      = (⟨0, 10, 11, 10, 1, 1,
          [[some (1/11), some 0, some 0, some 0, some 0, some (10/11),
            some 0, some 0, some 0, some 0, some 0]], true⟩ : NHArray) := by
    have h0 : (GetXRange (applyUpdates (CreateNHArray 0 10 11 1)
        (List.replicate 10 ⟨1, [5]⟩ ++ [⟨1, [0]⟩])).1 (1/5) none none).1
        = (⟨0, 10, 11, 10, 1, 1,
            [[some (1/11), some 0, some 0, some 0, some 0, some (10/11),
              some 0, some 0, some 0, some 0, some 0]], true⟩ : NHArray) := by
      decide
    exact h0
  have hcall : getrange (⟨0, 10, 11, 10, 1, 1,
      [[some (1/11), some 0, some 0, some 0, some 0, some (10/11),
        some 0, some 0, some 0, some 0, some 0]], true⟩ : NHArray)
      0 ((1:ℚ)/5/2) (1 - (1:ℚ)/5/2) xl0 xu0 = (some 4, some 5) := by
    obtain ⟨_, heq⟩ := getrangeAux_spec 0 1 ((1:ℚ)/5/2) (1 - (1:ℚ)/5/2)
      (by norm_num)
      [some (1/11), some 0, some 0, some 0, some 0, some (10/11),
       some 0, some 0, some 0, some 0, some 0] 5 5 0 (some 0) xl0 xu0
      (by decide) (by decide) (by decide) (by decide) (by decide)
    show getrangeAux (0:ℚ) 1 ((1:ℚ)/5/2) (1 - (1:ℚ)/5/2)
      [some (1/11), some 0, some 0, some 0, some 0, some (10/11),
       some 0, some 0, some 0, some 0, some 0] 0 (some 0) false xl0 xu0 = _
    rw [heq]
    norm_num
  rw [GetXRange_snd, hfst]
  show scanRows _ ((1:ℚ)/5/2) (1 - (1:ℚ)/5/2) 0 1 xl0 xu0 = _
  simp only [scanRows]
  rw [hcall]

/-- C7: a second `getRange` call with the same tail probability and the same
initial contents of the output locals returns the very same state and the
very same result matrix: normalization happens only in the first call. -/
theorem getrange_idempotent (h : NHArray) (prob : ℚ) (xl0 xu0 : EDouble) :
    GetXRange ((GetXRange h prob xl0 xu0).1) prob xl0 xu0
      = GetXRange h prob xl0 xu0 := by
  by_cases hn : h.normalized = true
  · simp [GetXRange, hn]
  · simp [GetXRange, hn]

/-- C9: when a variable's running mass never exceeds `pHigh`, its upper
bound output slot receives the stale value carried over from the previous
variable's scan (or the initial contents of the local for variable 0). -/
theorem unset_upper_bound_carry_over (h : NHArray) (prob : ℚ)
    (xl0 xu0 : EDouble) (i : ℕ)
    (hi : i < h.elems)
    (hn : ∀ k, k < (rowOf (GetXRange h prob xl0 xu0).1 i).length →
      egt (cacc (some 0) (rowOf (GetXRange h prob xl0 xu0).1 i) k)
        (1 - prob / 2) = false) :
    ((GetXRange h prob xl0 xu0).2.getD i (none, none)).2
      = if i = 0 then xu0
        else ((GetXRange h prob xl0 xu0).2.getD (i - 1) (none, none)).2 := by
  have he : (GetXRange h prob xl0 xu0).1.elems = h.elems :=
    GetXRange_fst_elems h prob xl0 xu0
  rw [GetXRange_snd, he]
  cases i with
  | zero =>
    rw [scanRows_getD_zero _ _ _ _ _ _ _ (by omega)]
    simp only [if_pos rfl]
    exact getrangeAux_nocross _ _ _ _ _ _ _ _ _ _ hn
  | succ m =>
    rw [scanRows_getD_succ _ _ _ _ _ _ _ _ (by omega)]
    simp only [Nat.succ_ne_zero, if_false, Nat.add_sub_cancel]
    have h01 : 0 + m + 1 = m + 1 := by omega
    rw [h01]
    exact getrangeAux_nocross _ _ _ _ _ _ _ _ _ _ hn

/-- C9 witness: a histogram with no accumulated samples normalizes to an
all-NaN row, the mass never crosses, and the stale initial value `some 7`
of the upper-bound local is returned as variable 0's upper bound. -/
theorem unset_upper_bound_carry_over_witness :
    ((GetXRange (CreateNHArray 0 10 11 1) (1/5) (some 3) (some 7)).2.getD 0
      (none, none)).2 = some 7 := by
  exact unset_upper_bound_carry_over (CreateNHArray 0 10 11 1) (1/5)
    (some 3) (some 7) 0 (by decide) (by decide)

/-- C10: a variable whose mass already exceeds `pLow` at bin 0 gets the
lower bound `xl + deltax * (0 - 1) = xl - deltax`, strictly below the lower
edge of the binning domain. -/
theorem lower_bound_below_domain (h : NHArray) (prob : ℚ)
    (xl0 xu0 : EDouble) (i : ℕ) (e : EDouble) (rest : List EDouble)
    (hi : i < h.elems)
    (hrow : rowOf (GetXRange h prob xl0 xu0).1 i = e :: rest)
    (hcross : egt (eadd (some 0) e) (prob / 2) = true)
    (hdx : 0 < h.deltax) :
    ((GetXRange h prob xl0 xu0).2.getD i (none, none)).1
      = some (h.xl - h.deltax) ∧ h.xl - h.deltax < h.xl := by
  refine ⟨?_, by linarith⟩
  have he : (GetXRange h prob xl0 xu0).1.elems = h.elems :=
    GetXRange_fst_elems h prob xl0 xu0
  have hxl : (GetXRange h prob xl0 xu0).1.xl = h.xl :=
    GetXRange_fst_xl h prob xl0 xu0
  have hdx' : (GetXRange h prob xl0 xu0).1.deltax = h.deltax :=
    GetXRange_fst_deltax h prob xl0 xu0
  rw [GetXRange_snd, he]
  cases i with
  | zero =>
    rw [scanRows_getD_zero _ _ _ _ _ _ _ (by omega)]
    show (getrangeAux _ _ _ _ _ 0 (some 0) false xl0 xu0).1 = _
    rw [hrow, getrangeAux_fst_firstbin _ _ _ _ _ _ hcross, hxl, hdx']
  | succ m =>
    rw [scanRows_getD_succ _ _ _ _ _ _ _ _ (by omega)]
    have h01 : 0 + m + 1 = m + 1 := by omega
    rw [h01]
    show (getrangeAux _ _ _ _ _ 0 (some 0) false _ _).1 = _
    rw [hrow, getrangeAux_fst_firstbin _ _ _ _ _ _ hcross, hxl, hdx']

/-- C10 witness: all mass in bin 0 (one sample at the lower edge) gives the
lower bound `0 - 1 = -1`, strictly below the domain edge `0`. -/
theorem lower_bound_below_domain_witness :
    ((GetXRange (UpdateNHArray (CreateNHArray 0 10 11 1) ⟨1, [0]⟩).1 (1/5)
        none none).2.getD 0 (none, none)).1 = some (0 - 1) ∧
      ((0 : ℚ) - 1 < 0) := by
  exact lower_bound_below_domain
    (UpdateNHArray (CreateNHArray 0 10 11 1) ⟨1, [0]⟩).1 (1/5) none none 0
    (some 1) (List.replicate 10 (some 0)) (by decide) (by decide)
    (by decide) (by decide)

/-! ### Well-formedness, bin mapping and error handling -/

/-- The creation-time relations between the fields, plus buffer shape. -/
def WF (h : NHArray) : Prop :=
  2 ≤ h.nbins ∧ h.xl < h.xu ∧ h.nbinsm1 = (h.nbins : ℤ) - 1 ∧
    h.deltax = (h.xu - h.xl) / ((h.nbins : ℚ) - 1) ∧
    h.dbuffer.length = h.elems ∧ ∀ r ∈ h.dbuffer, r.length = h.nbins

instance (h : NHArray) : Decidable (WF h) := by
  unfold WF
  infer_instance

/-- Bin `j` of variable `i`. -/
def getE (h : NHArray) (i j : ℕ) : EDouble :=
  (rowOf h i).getD j none

theorem rint_nonpos_of_neg {q : ℚ} (hq : q < 0) : rint q ≤ 0 := by
  by_contra hc
  have h1 : (1 : ℤ) ≤ rint q := by omega
  have h1' : (1 : ℚ) ≤ (rint q : ℚ) := by exact_mod_cast h1
  have h2 := rint_le_add_half q
  linarith

theorem le_rint_of_lt {q : ℚ} {m : ℤ} (hq : (m : ℚ) < q) : m ≤ rint q := by
  by_contra hc
  have h1 : rint q ≤ m - 1 := by omega
  have h1' : (rint q : ℚ) ≤ (m : ℚ) - 1 := by exact_mod_cast h1
  have h2 := sub_half_le_rint q
  linarith

theorem deltax_pos {h : NHArray} (hwf : WF h) : 0 < h.deltax := by
  obtain ⟨h2, hlt, _, hdx, _, _⟩ := hwf
  have h2' : (2 : ℚ) ≤ (h.nbins : ℚ) := by exact_mod_cast h2
  rw [hdx]
  exact div_pos (by linarith) (by linarith)


/-- C3: `accumulate` maps a sample `v` to bin `rint((v - lower)/binWidth)`
(a round-to-nearest index, off from the exact position by at most half a
bin), clamps it into `[0, binCount-1]`, and increments exactly that bin of
exactly that row by 1; `lower` maps to bin 0, `upper` to the last bin, and
out-of-range samples saturate to the nearest edge bin. -/
theorem updatevalue_bin_mapping (h : NHArray) (i : ℕ) (v : ℚ)
    (hwf : WF h) (hi : i < h.elems) :
    (0 ≤ binindex h v ∧ binindex h v ≤ h.nbinsm1) ∧
    (-(1/2) ≤ (rint ((v - h.xl) / h.deltax) : ℚ) - (v - h.xl) / h.deltax ∧
      (rint ((v - h.xl) / h.deltax) : ℚ) - (v - h.xl) / h.deltax ≤ 1/2) ∧
    binindex h h.xl = 0 ∧
    binindex h h.xu = h.nbinsm1 ∧
    (v < h.xl → binindex h v = 0) ∧
    (h.xu < v → binindex h v = h.nbinsm1) ∧
    (∀ i', i' < h.elems → ∀ j, j < h.nbins →
      getE (updatevalue h i v) i' j
        = if i' = i ∧ (j : ℤ) = binindex h v
          then eadd (getE h i' j) (some 1) else getE h i' j) := by
  obtain ⟨h2, hlt, hm1, hdx, hlen, hrows⟩ := hwf
  have hdxpos : 0 < h.deltax := deltax_pos ⟨h2, hlt, hm1, hdx, hlen, hrows⟩
  have hm1ge : 1 ≤ h.nbinsm1 := by
    rw [hm1]
    omega
  have hne : ((h.nbins : ℚ) - 1) ≠ 0 := by
    have : (2 : ℚ) ≤ (h.nbins : ℚ) := by exact_mod_cast h2
    linarith
  have hbin_def : ∀ w : ℚ, binindex h w
      = if h.nbinsm1 < (if rint ((w - h.xl) / h.deltax) < 0 then 0
            else rint ((w - h.xl) / h.deltax)) then h.nbinsm1
        else (if rint ((w - h.xl) / h.deltax) < 0 then 0
            else rint ((w - h.xl) / h.deltax)) := fun w => rfl
  have hrange : ∀ w : ℚ, 0 ≤ binindex h w ∧ binindex h w ≤ h.nbinsm1 := by
    intro w
    rw [hbin_def w]
    split_ifs <;> omega
  have hsubne : h.xu - h.xl ≠ 0 :=
    ne_of_gt (show (0 : ℚ) < h.xu - h.xl by linarith)
  have hupperarg : (h.xu - h.xl) / h.deltax = (((h.nbins : ℤ) - 1 : ℤ) : ℚ) := by
    rw [hdx]
    push_cast
    rw [div_div_eq_mul_div, mul_comm, mul_div_assoc, div_self hsubne, mul_one]
  refine ⟨hrange v, ⟨?_, ?_⟩, ?_, ?_, ?_, ?_, ?_⟩
  · linarith [sub_half_le_rint ((v - h.xl) / h.deltax)]
  · linarith [rint_le_add_half ((v - h.xl) / h.deltax)]
  · -- a sample at the lower edge lands in bin 0
    have harg : (h.xl - h.xl) / h.deltax = ((0 : ℤ) : ℚ) := by
      rw [sub_self, zero_div]
      norm_num
    rw [hbin_def, harg, rint_intCast, if_neg (lt_irrefl (0 : ℤ)),
      if_neg (by omega : ¬ h.nbinsm1 < (0 : ℤ))]
  · -- a sample at the upper edge lands in the last bin
    rw [hbin_def, hupperarg, rint_intCast, ← hm1,
      if_neg (by omega : ¬ h.nbinsm1 < (0 : ℤ)), if_neg (lt_irrefl h.nbinsm1)]
  · -- saturation below the range
    intro hv
    have harg : (v - h.xl) / h.deltax < 0 :=
      div_neg_of_neg_of_pos (by linarith) hdxpos
    have hnp : rint ((v - h.xl) / h.deltax) ≤ 0 := rint_nonpos_of_neg harg
    rw [hbin_def]
    by_cases hc : rint ((v - h.xl) / h.deltax) < 0
    · rw [if_pos hc, if_neg (by omega : ¬ h.nbinsm1 < (0 : ℤ))]
    · have h0 : rint ((v - h.xl) / h.deltax) = 0 := by omega
      rw [if_neg hc, h0, if_neg (by omega : ¬ h.nbinsm1 < (0 : ℤ))]
  · -- saturation above the range
    intro hv
    have hmul : ((h.nbins : ℚ) - 1) * h.deltax = h.xu - h.xl := by
      rw [hdx]
      field_simp
    have harg : (((h.nbins : ℤ) - 1 : ℤ) : ℚ) < (v - h.xl) / h.deltax := by
      rw [lt_div_iff₀ hdxpos]
      push_cast
      rw [hmul]
      linarith
    have hge : (h.nbins : ℤ) - 1 ≤ rint ((v - h.xl) / h.deltax) :=
      le_rint_of_lt harg
    rw [hbin_def, if_neg (by omega : ¬ rint ((v - h.xl) / h.deltax) < 0)]
    by_cases hc : h.nbinsm1 < rint ((v - h.xl) / h.deltax)
    · rw [if_pos hc]
    · rw [if_neg hc]
      omega
  · -- the increment touches exactly row `i`, bin `binindex h v`
    intro i' hi' j hj
    have hb0 := (hrange v).1
    have hb1 := (hrange v).2
    have hitoNat : ((binindex h v).toNat : ℤ) = binindex h v :=
      Int.toNat_of_nonneg hb0
    have hidb : i < h.dbuffer.length := by
      rw [hlen]
      exact hi
    by_cases hii : i' = i
    · subst hii
      have hrow : rowOf (updatevalue h i' v) i'
          = setIdx (rowOf h i') (binindex h v).toNat (fun e => eadd e (some 1)) := by
        show (setIdx h.dbuffer i' _).getD i' [] = _
        rw [getD_setIdx_eq _ _ _ _ hidb]
        rfl
      have hrlen : (rowOf h i').length = h.nbins := by
        apply hrows
        show h.dbuffer.getD i' [] ∈ h.dbuffer
        rw [List.getD_eq_getElem _ _ hidb]
        exact List.getElem_mem hidb
      by_cases hjj : j = (binindex h v).toNat
      · subst hjj
        simp only [getE, hrow]
        rw [getD_setIdx_eq _ _ _ _ (by rw [hrlen]; omega)]
        split_ifs with hcond
        · rfl
        · exact absurd ⟨by trivial, hitoNat⟩ hcond
      · simp only [getE, hrow]
        rw [getD_setIdx_ne _ _ _ _ _ (fun hh => hjj hh.symm)]
        split_ifs with hcond
        · exfalso
          apply hjj
          have hx := hcond.2
          omega
        · rfl
    · have hrow : rowOf (updatevalue h i v) i' = rowOf h i' := by
        show (setIdx h.dbuffer i _).getD i' [] = _
        rw [getD_setIdx_ne _ _ _ _ _ (fun hh => hii hh.symm)]
        rfl
      simp only [getE, hrow]
      rw [if_neg (fun hc => hii hc.1)]

/-- C3 witness: in `create(0, 10, 11, 2)`, the sample `3.7` rounds to bin 4
and its accumulation increments exactly that bin. -/
theorem updatevalue_bin_mapping_witness :
    binindex (CreateNHArray 0 10 11 2) (37/10) = 4 ∧
    getE (updatevalue (CreateNHArray 0 10 11 2) 0 (37/10)) 0 4
      = eadd (getE (CreateNHArray 0 10 11 2) 0 4) (some 1) := by
  obtain ⟨-, -, -, -, -, -, hupd⟩ :=
    updatevalue_bin_mapping (CreateNHArray 0 10 11 2) 0 (37/10)
      (by decide) (by decide)
  have h4 := hupd 0 (by decide) 4 (by decide)
  rw [if_pos ⟨rfl, by decide⟩] at h4
  exact ⟨by decide, h4⟩

/-- C5: `accumulate` fails with the state error when the histogram is
already normalized, with the linearity error when the input is not
one-dimensional, with the dimension error when the sample count differs
from `variableCount`, and every failure returns the state unchanged. -/
theorem update_error_cases (h : NHArray) (a : PyArr) :
    (h.normalized = true →
      UpdateNHArray h a
        = (h, some "The histogram array has already been normalized, you can not update it")) ∧
    (h.normalized = false → a.nd ≠ 1 →
      UpdateNHArray h a = (h, some "Input array must be linear.")) ∧
    (h.normalized = false → a.nd = 1 → a.data.length ≠ h.elems →
      UpdateNHArray h a
        = (h, some "Input array dimensions and NHArray dimensions do not match.")) ∧
    ((UpdateNHArray h a).2 ≠ none → (UpdateNHArray h a).1 = h) := by
  refine ⟨?_, ?_, ?_, ?_⟩
  · intro hn
    simp [UpdateNHArray, hn]
  · intro hn hnd
    simp [UpdateNHArray, hn, hnd]
  · intro hn hnd hl
    simp [UpdateNHArray, hn, hnd, hl]
  · intro herr
    by_cases hn : h.normalized = true
    · simp [UpdateNHArray, hn]
    · rw [Bool.not_eq_true] at hn
      by_cases hnd : a.nd = 1
      · by_cases hl : a.data.length = h.elems
        · exact absurd (by simp [UpdateNHArray, hn, hnd, hl]) herr
        · simp [UpdateNHArray, hn, hnd, hl]
      · simp [UpdateNHArray, hn, hnd]

/-- C5 witness: the three failure modes on concrete inputs, each leaving
the histogram unchanged. -/
theorem update_error_cases_witness :
    UpdateNHArray (⟨0, 1, 2, 1, 1, 1, [[some 0, some 0]], true⟩ : NHArray)
        ⟨1, [0]⟩
      = ((⟨0, 1, 2, 1, 1, 1, [[some 0, some 0]], true⟩ : NHArray),
         some "The histogram array has already been normalized, you can not update it") ∧
    UpdateNHArray (CreateNHArray 0 1 2 1) ⟨2, [0]⟩
      = (CreateNHArray 0 1 2 1, some "Input array must be linear.") ∧
    UpdateNHArray (CreateNHArray 0 1 2 1) ⟨1, [0, 0]⟩
      = (CreateNHArray 0 1 2 1,
         some "Input array dimensions and NHArray dimensions do not match.") := by
  refine ⟨(update_error_cases _ _).1 (by decide),
    (update_error_cases _ _).2.1 (by decide) (by decide),
    (update_error_cases _ _).2.2.1 (by decide) (by decide) (by decide)⟩

/-- C8: normalizing row `i` replaces every entry by its quotient through the
row's integer count total `N`, with no error path: when `N = 0` the
unguarded division turns every entry of the row into a non-finite value
(NaN), and when `N ≠ 0` every finite entry is divided by `N`. -/
theorem normalizepdf_zero_sum_nan (h : NHArray) (i : ℕ)
    (hi : i < h.dbuffer.length) :
    rowOf (normalizepdf h i) i
        = (rowOf h i).map (fun e => ediv e (sumNx 0 (rowOf h i))) ∧
      (sumNx 0 (rowOf h i) = 0 →
        ∀ e ∈ rowOf (normalizepdf h i) i, e = none) ∧
      (sumNx 0 (rowOf h i) ≠ 0 →
        rowOf (normalizepdf h i) i
          = (rowOf h i).map (fun e =>
              e.map (fun q => q / ((sumNx 0 (rowOf h i) : ℤ) : ℚ)))) := by
  have hr : rowOf (normalizepdf h i) i
      = (rowOf h i).map (fun e => ediv e (sumNx 0 (rowOf h i))) := by
    show (setIdx h.dbuffer i _).getD i [] = _
    rw [getD_setIdx_eq _ _ _ _ hi]
    rfl
  refine ⟨hr, ?_, ?_⟩
  · intro h0 e he
    rw [hr] at he
    simp only [List.mem_map] at he
    obtain ⟨x, -, rfl⟩ := he
    rw [h0]
    cases x <;> simp [ediv]
  · intro h0
    rw [hr]
    have hfun : (fun e => ediv e (sumNx 0 (rowOf h i)))
        = (fun e : EDouble =>
            e.map (fun q => q / ((sumNx 0 (rowOf h i) : ℤ) : ℚ))) := by
      funext e
      cases e with
      | none => rfl
      | some x => simp [ediv, h0]
    rw [hfun]

/-- C8 witness: a variable with zero accumulated samples (row total 0)
normalizes to an all-NaN row. -/
theorem normalizepdf_zero_sum_nan_witness :
    sumNx 0 (rowOf (CreateNHArray 0 4 3 2) 0) = 0 ∧
    ∀ e ∈ rowOf (normalizepdf (CreateNHArray 0 4 3 2) 0) 0, e = none :=
  ⟨by decide,
   (normalizepdf_zero_sum_nan (CreateNHArray 0 4 3 2) 0 (by decide)).2.1
     (by decide)⟩

/-! ### Accumulation invariants: shapes, integer entries and row sums -/

theorem cint_intCast (k : ℤ) : cint ((k : ℚ)) = k := by
  unfold cint
  rw [Rat.num_intCast, Rat.den_intCast]
  exact Int.tdiv_one k

theorem eadd_zero_left (x : EDouble) : eadd (some 0) x = x := by
  cases x <;> simp [eadd]

theorem eadd_some_eadd_some (a b : ℚ) (x : EDouble) :
    eadd (some a) (eadd (some b) x) = eadd (some (a + b)) x := by
  cases x <;> simp [eadd] <;> ring

theorem eadd_comm_e (a b : EDouble) : eadd a b = eadd b a := by
  cases a <;> cases b <;> simp [eadd, add_comm]

theorem eadd_assoc_e (a b c : EDouble) :
    eadd (eadd a b) c = eadd a (eadd b c) := by
  cases a <;> cases b <;> cases c <;> simp [eadd] <;> ring

theorem eadd_right_comm_e (a b c : EDouble) :
    eadd (eadd a b) c = eadd (eadd a c) b := by
  cases a <;> cases b <;> cases c <;> simp [eadd] <;> ring

/-- Folding `eadd` from a shifted accumulator pulls the shift out. -/
theorem foldl_eadd_shift : ∀ (r : List EDouble) (a b : EDouble),
    r.foldl eadd (eadd a b) = eadd b (r.foldl eadd a) := by
  intro r
  induction r with
  | nil => intro a b; exact eadd_comm_e a b
  | cons e t ih =>
    intro a b
    show t.foldl eadd (eadd (eadd a b) e) = eadd b (t.foldl eadd (eadd a e))
    rw [eadd_right_comm_e, ih]

/-- Incrementing one in-range cell adds the increment to the fold. -/
theorem foldl_setIdx_eadd : ∀ (t : List EDouble) (j : ℕ) (x a : EDouble),
    j < t.length →
    (setIdx t j (fun e => eadd e x)).foldl eadd a = eadd x (t.foldl eadd a) := by
  intro t
  induction t with
  | nil =>
    intro j x a hj
    exact absurd hj (by simp)
  | cons e t ih =>
    intro j x a hj
    cases j with
    | zero =>
      show t.foldl eadd (eadd a (eadd e x)) = eadd x (t.foldl eadd (eadd a e))
      rw [← eadd_assoc_e, foldl_eadd_shift]
    | succ n =>
      show (setIdx t n _).foldl eadd (eadd a e) = eadd x (t.foldl eadd (eadd a e))
      exact ih n x (eadd a e) (by simpa using hj)

/-- A cell of `setIdx l i f` is a cell of `l` or the image of one under `f`. -/
theorem mem_setIdx {α : Type} (f : α → α) : ∀ (l : List α) (i : ℕ) (x : α),
    x ∈ setIdx l i f → x ∈ l ∨ ∃ y, y ∈ l ∧ x = f y := by
  intro l
  induction l with
  | nil =>
    intro i x hx
    exact absurd hx (by simp [setIdx])
  | cons a t ih =>
    intro i x hx
    cases i with
    | zero =>
      rcases List.mem_cons.mp hx with hx | hx
      · exact Or.inr ⟨a, List.mem_cons_self a t, hx⟩
      · exact Or.inl (List.mem_cons_of_mem a hx)
    | succ n =>
      rcases List.mem_cons.mp hx with hx | hx
      · exact Or.inl (hx ▸ List.mem_cons_self a t)
      · rcases ih n x hx with hy | ⟨y, hy, hxy⟩
        · exact Or.inl (List.mem_cons_of_mem a hy)
        · exact Or.inr ⟨y, List.mem_cons_of_mem a hy, hxy⟩

/-- The reachable-state invariant of the engine before normalization:
well-shaped buffer, natural-number counts, flag still clear. -/
def EngineInv (h : NHArray) : Prop :=
  h.dbuffer.length = h.elems ∧
  (∀ r ∈ h.dbuffer, r.length = h.nbins) ∧
  (∀ r ∈ h.dbuffer, ∀ e ∈ r, ∃ n : ℕ, e = some ((n : ℕ) : ℚ)) ∧
  h.normalized = false ∧
  h.nbinsm1 = (h.nbins : ℤ) - 1 ∧
  1 ≤ h.nbins

/-- The clamped bin index is always inside `[0, nbinsm1]` whenever
`nbinsm1` is non-negative. -/
theorem binindex_range (h : NHArray) (hm1 : 0 ≤ h.nbinsm1) (v : ℚ) :
    0 ≤ binindex h v ∧ binindex h v ≤ h.nbinsm1 := by
  have hdef : binindex h v
      = if h.nbinsm1 < (if rint ((v - h.xl) / h.deltax) < 0 then 0
            else rint ((v - h.xl) / h.deltax)) then h.nbinsm1
        else (if rint ((v - h.xl) / h.deltax) < 0 then 0
            else rint ((v - h.xl) / h.deltax)) := rfl
  rw [hdef]
  split_ifs <;> omega

/-- Effect of one `updatevalue` on shapes, integer-valuedness and row sums:
exactly row `i` gains `+1` in one in-range bin. -/
theorem updatevalue_effects (h : NHArray) (i : ℕ) (v : ℚ)
    (hrows : ∀ r ∈ h.dbuffer, r.length = h.nbins)
    (hm1 : h.nbinsm1 = (h.nbins : ℤ) - 1) (h1b : 1 ≤ h.nbins) :
    ((updatevalue h i v).dbuffer.length = h.dbuffer.length) ∧
    (∀ r ∈ (updatevalue h i v).dbuffer, r.length = h.nbins) ∧
    ((∀ r ∈ h.dbuffer, ∀ e ∈ r, ∃ n : ℕ, e = some ((n : ℕ) : ℚ)) →
      ∀ r ∈ (updatevalue h i v).dbuffer, ∀ e ∈ r, ∃ n : ℕ, e = some ((n : ℕ) : ℚ)) ∧
    (∀ j, j < h.dbuffer.length →
      esum (rowOf (updatevalue h i v) j)
        = if j = i then eadd (some 1) (esum (rowOf h j))
          else esum (rowOf h j)) := by
  have hm1nn : 0 ≤ h.nbinsm1 := by omega
  have hbb := binindex_range h hm1nn v
  refine ⟨setIdx_length _ _ _, ?_, ?_, ?_⟩
  · intro r hr
    rcases mem_setIdx _ _ _ _ hr with hr | ⟨y, hy, rfl⟩
    · exact hrows r hr
    · rw [setIdx_length]
      exact hrows y hy
  · intro hnat r hr
    rcases mem_setIdx _ _ _ _ hr with hr | ⟨y, hy, rfl⟩
    · exact hnat r hr
    · intro e he
      rcases mem_setIdx _ _ _ _ he with he | ⟨z, hz, rfl⟩
      · exact hnat y hy e he
      · obtain ⟨n, rfl⟩ := hnat y hy z hz
        exact ⟨n + 1, by push_cast [eadd]; ring_nf⟩
  · intro j hj
    by_cases hji : j = i
    · subst hji
      have hrow : rowOf (updatevalue h j v) j
          = setIdx (rowOf h j) (binindex h v).toNat (fun e => eadd e (some 1)) := by
        show (setIdx h.dbuffer j _).getD j [] = _
        rw [getD_setIdx_eq _ _ _ _ hj]
        rfl
      have hrlen : (rowOf h j).length = h.nbins := by
        apply hrows
        show h.dbuffer.getD j [] ∈ h.dbuffer
        rw [List.getD_eq_getElem _ _ hj]
        exact List.getElem_mem hj
      rw [if_pos rfl, hrow]
      exact foldl_setIdx_eadd _ _ _ _ (by rw [hrlen]; omega)
    · have hrow : rowOf (updatevalue h i v) j = rowOf h j := by
        show (setIdx h.dbuffer i _).getD j [] = _
        exact getD_setIdx_ne _ _ _ _ _ (fun hh => hji hh.symm)
      rw [if_neg hji, hrow]

/-- Effect of one pass of the update loop: every row in the window
`[i0, i0 + vs.length)` gains exactly one count; everything else, including
all scalar fields, is unchanged. -/
theorem updateAll_effects : ∀ (vs : List ℚ) (i0 : ℕ) (h : NHArray),
    (∀ r ∈ h.dbuffer, r.length = h.nbins) →
    h.nbinsm1 = (h.nbins : ℤ) - 1 → 1 ≤ h.nbins →
    (updateAll h i0 vs).xl = h.xl ∧
    (updateAll h i0 vs).xu = h.xu ∧
    (updateAll h i0 vs).nbins = h.nbins ∧
    (updateAll h i0 vs).nbinsm1 = h.nbinsm1 ∧
    (updateAll h i0 vs).deltax = h.deltax ∧
    (updateAll h i0 vs).elems = h.elems ∧
    (updateAll h i0 vs).normalized = h.normalized ∧
    (updateAll h i0 vs).dbuffer.length = h.dbuffer.length ∧
    (∀ r ∈ (updateAll h i0 vs).dbuffer, r.length = h.nbins) ∧
    ((∀ r ∈ h.dbuffer, ∀ e ∈ r, ∃ n : ℕ, e = some ((n : ℕ) : ℚ)) →
      ∀ r ∈ (updateAll h i0 vs).dbuffer, ∀ e ∈ r, ∃ n : ℕ, e = some ((n : ℕ) : ℚ)) ∧
    (∀ j, j < h.dbuffer.length →
      esum (rowOf (updateAll h i0 vs) j)
        = if i0 ≤ j ∧ j < i0 + vs.length
          then eadd (some 1) (esum (rowOf h j))
          else esum (rowOf h j)) := by
  intro vs
  induction vs with
  | nil =>
    intro i0 h hrows hm1 h1b
    refine ⟨rfl, rfl, rfl, rfl, rfl, rfl, rfl, rfl, hrows, fun hnat => hnat, ?_⟩
    intro j hj
    rw [if_neg (by simp only [List.length_nil]; omega)]
    rfl
  | cons v vs ih =>
    intro i0 h hrows hm1 h1b
    obtain ⟨hl, hr, hn, hs⟩ := updatevalue_effects h i0 v hrows hm1 h1b
    obtain ⟨ixl, ixu, inb, im1, idx, iel, ino, ilen, irows, inat, isum⟩ :=
      ih (i0 + 1) (updatevalue h i0 v) hr hm1 h1b
    simp only [updateAll]
    refine ⟨ixl, ixu, inb, im1, idx, iel, ino, by rw [ilen, hl], irows,
      fun hyp => inat (hn hyp), ?_⟩
    intro j hj
    simp only [List.length_cons]
    have hj' : j < (updatevalue h i0 v).dbuffer.length := by rw [hl]; exact hj
    rw [isum j hj', hs j hj]
    by_cases hji : j = i0
    · subst hji
      rw [if_neg (by omega), if_pos rfl, if_pos (by omega)]
    · by_cases hin : i0 + 1 ≤ j ∧ j < i0 + 1 + vs.length
      · rw [if_pos hin, if_neg hji, if_pos (by omega)]
      · rw [if_neg hin, if_neg hji, if_neg (by omega)]

/-- A successful `UpdateNHArray` call implies the three checks passed and the
result is exactly one pass of the update loop. -/
theorem UpdateNHArray_ok {h h' : NHArray} {a : PyArr}
    (heq : UpdateNHArray h a = (h', none)) :
    h.normalized = false ∧ a.data.length = h.elems ∧
      h' = updateAll h 0 a.data := by
  unfold UpdateNHArray at heq
  split_ifs at heq with h1 h2 h3
  · exact absurd (congrArg Prod.snd heq) (by simp)
  · exact absurd (congrArg Prod.snd heq) (by simp)
  · exact absurd (congrArg Prod.snd heq) (by simp)
  · refine ⟨by simpa using h1, by simpa using h3, ?_⟩
    have := congrArg Prod.fst heq
    simpa using this.symm

/-- A run of successful `accumulate` calls preserves the engine invariant
and adds exactly one count per call to every row's sum. -/
theorem applyUpdates_inv : ∀ (ss : List PyArr) (h h' : NHArray),
    EngineInv h → applyUpdates h ss = (h', none) →
    EngineInv h' ∧ h'.elems = h.elems ∧ h'.nbins = h.nbins ∧
      h'.xl = h.xl ∧ h'.deltax = h.deltax ∧
      ∀ j, j < h.elems →
        esum (rowOf h' j)
          = eadd (some ((ss.length : ℕ) : ℚ)) (esum (rowOf h j)) := by
  intro ss
  induction ss with
  | nil =>
    intro h h' hInv heq
    have hh : h' = h := by
      have := congrArg Prod.fst heq
      simpa [applyUpdates] using this.symm
    subst hh
    refine ⟨hInv, rfl, rfl, rfl, rfl, ?_⟩
    intro j hj
    rw [show ((List.length ([] : List PyArr) : ℕ) : ℚ) = 0 by simp,
      eadd_zero_left]
  | cons a ss ih =>
    intro h h' hInv heq
    obtain ⟨hlen, hrows, hnat, hnorm, hm1, h1b⟩ := hInv
    rcases hU : UpdateNHArray h a with ⟨h₁, o⟩
    cases o with
    | some msg =>
      rw [applyUpdates, hU] at heq
      exact absurd (congrArg Prod.snd heq) (by simp)
    | none =>
      rw [applyUpdates, hU] at heq
      obtain ⟨-, hlen_a, hup⟩ := UpdateNHArray_ok hU
      obtain ⟨uxl, uxu, unb, um1, udx, uel, uno, ulen, urows, unat, usum⟩ :=
        updateAll_effects a.data 0 h hrows hm1 h1b
      have hInv₁ : EngineInv h₁ := by
        subst hup
        exact ⟨by rw [ulen, uel, hlen], by rw [unb]; exact urows,
          unat hnat, by rw [uno]; exact hnorm,
          by rw [um1, unb, hm1], by rw [unb]; exact h1b⟩
      obtain ⟨hInv', hel', hnb', hxl', hdx', hsum'⟩ := ih h₁ h' hInv₁ heq
      have hel₁ : h₁.elems = h.elems := by rw [hup, uel]
      have hnb₁ : h₁.nbins = h.nbins := by rw [hup, unb]
      have hxl₁ : h₁.xl = h.xl := by rw [hup, uxl]
      have hdx₁ : h₁.deltax = h.deltax := by rw [hup, udx]
      refine ⟨hInv', by rw [hel', hel₁], by rw [hnb', hnb₁],
        by rw [hxl', hxl₁], by rw [hdx', hdx₁], ?_⟩
      intro j hj
      have hjl : j < h.dbuffer.length := by rw [hlen]; exact hj
      have hstep : esum (rowOf h₁ j) = eadd (some 1) (esum (rowOf h j)) := by
        rw [hup]
        rw [usum j hjl, if_pos (by constructor <;> omega)]
      rw [hsum' j (by rw [hel₁]; exact hj), hstep, eadd_some_eadd_some]
      rw [show ((List.length (a :: ss) : ℕ) : ℚ) = (ss.length : ℚ) + 1 by
        push_cast [List.length_cons]; ring]

theorem EngineInv_create (xl xu : ℚ) (nbins elems : ℕ) (h1b : 1 ≤ nbins) :
    EngineInv (CreateNHArray xl xu nbins elems) := by
  refine ⟨by simp [CreateNHArray], ?_, ?_, rfl, rfl, h1b⟩
  · intro r hr
    rw [List.eq_of_mem_replicate hr]
    exact List.length_replicate nbins _
  · intro r hr e he
    rw [List.eq_of_mem_replicate hr] at he
    exact ⟨0, by rw [List.eq_of_mem_replicate he]; norm_num⟩

theorem rowOf_create (xl xu : ℚ) (nbins elems i : ℕ) (hi : i < elems) :
    rowOf (CreateNHArray xl xu nbins elems) i
      = List.replicate nbins (some 0) := by
  show (List.replicate elems (List.replicate nbins (some 0))).getD i [] = _
  rw [List.getD_eq_getElem _ _ (by simpa using hi)]
  exact List.getElem_replicate _ _

theorem foldl_eadd_replicate_zero :
    ∀ (n : ℕ) (b : ℚ),
      (List.replicate n (some (0 : ℚ))).foldl eadd (some b) = some b := by
  intro n
  induction n with
  | zero => intro b; rfl
  | succ m ih =>
    intro b
    show (List.replicate m (some (0:ℚ))).foldl eadd (eadd (some b) (some 0)) = _
    rw [show eadd (some b) (some 0) = some b by simp [eadd]]
    exact ih b

/-- C4: starting from creation, after `k` successful `accumulate` calls the
histogram is still unnormalized and every variable's row of counters sums to
exactly `k`, whatever the sample values (in range or not). -/
theorem row_sums_count_updates (xl xu : ℚ) (nbins elems : ℕ)
    (ss : List PyArr) (h' : NHArray)
    (hnb : 1 ≤ nbins)
    (hupd : applyUpdates (CreateNHArray xl xu nbins elems) ss = (h', none)) :
    h'.normalized = false ∧
    ∀ i, i < elems →
      esum (rowOf h' i) = some ((ss.length : ℕ) : ℚ) := by
  obtain ⟨hInv', -, -, -, -, hsum⟩ :=
    applyUpdates_inv ss _ h' (EngineInv_create xl xu nbins elems hnb) hupd
  refine ⟨hInv'.2.2.2.1, ?_⟩
  intro i hi
  have hs := hsum i hi
  rw [rowOf_create xl xu nbins elems i hi] at hs
  rw [hs, esum, foldl_eadd_replicate_zero]
  simp [eadd]

/-- C4 witness: two accumulations over two variables, including out-of-range
samples (`20` above, `-3` below the domain `[0,10]`); both rows sum to 2. -/
theorem row_sums_count_updates_witness :
    (applyUpdates (CreateNHArray 0 10 11 2)
        [⟨1, [5, 20]⟩, ⟨1, [-3, 7]⟩]).1.normalized = false ∧
    ∀ i, i < 2 →
      esum (rowOf (applyUpdates (CreateNHArray 0 10 11 2)
        [⟨1, [5, 20]⟩, ⟨1, [-3, 7]⟩]).1 i)
        = some ((List.length [(⟨1, [5, 20]⟩ : PyArr), ⟨1, [-3, 7]⟩] : ℕ) : ℚ) := by
  exact row_sums_count_updates 0 10 11 2 [⟨1, [5, 20]⟩, ⟨1, [-3, 7]⟩]
    (applyUpdates (CreateNHArray 0 10 11 2) [⟨1, [5, 20]⟩, ⟨1, [-3, 7]⟩]).1
    (by decide) (by decide)

/-! ### Normalization of integer-count rows -/

/-- A row of natural-number counts has a total `S` governing the C `int`
accumulation, the row sum, and the sum after dividing every entry by a
nonzero `N`. -/
theorem natRow_sums : ∀ (r : List EDouble),
    (∀ e ∈ r, ∃ n : ℕ, e = some ((n : ℕ) : ℚ)) →
    ∃ S : ℕ,
      (∀ a : ℤ, sumNx a r = a + (S : ℤ)) ∧
      (∀ b : ℚ, r.foldl eadd (some b) = some (b + (S : ℚ))) ∧
      (∀ N : ℤ, N ≠ 0 → ∀ b : ℚ,
        (r.map (fun e => ediv e N)).foldl eadd (some b)
          = some (b + (S : ℚ) / (N : ℚ))) := by
  intro r
  induction r with
  | nil =>
    refine fun _ => ⟨0, fun a => by simp [sumNx], fun b => by simp, ?_⟩
    intro N hN b
    simp
  | cons e t ih =>
    intro hr
    obtain ⟨n, rfl⟩ := hr e (List.mem_cons_self e t)
    obtain ⟨S, hsum, hfold, hdiv⟩ :=
      ih (fun x hx => hr x (List.mem_cons_of_mem _ hx))
    refine ⟨n + S, ?_, ?_, ?_⟩
    · intro a
      show sumNx (cint ((a : ℚ) + ((n : ℕ) : ℚ))) t = _
      rw [show ((a : ℚ) + ((n : ℕ) : ℚ)) = (((a + (n : ℤ)) : ℤ) : ℚ) by
        push_cast; ring]
      rw [cint_intCast, hsum]
      push_cast
      ring
    · intro b
      show t.foldl eadd (eadd (some b) (some ((n : ℕ) : ℚ))) = _
      rw [show eadd (some b) (some ((n : ℕ) : ℚ))
          = some (b + ((n : ℕ) : ℚ)) from rfl]
      rw [hfold]
      congr 1
      push_cast
      ring
    · intro N hN b
      show (t.map _).foldl eadd
        (eadd (some b) (ediv (some ((n : ℕ) : ℚ)) N)) = _
      rw [show ediv (some ((n : ℕ) : ℚ)) N
          = some (((n : ℕ) : ℚ) / (N : ℚ)) by simp [ediv, hN]]
      rw [show eadd (some b) (some (((n : ℕ) : ℚ) / (N : ℚ)))
          = some (b + ((n : ℕ) : ℚ) / (N : ℚ)) from rfl]
      rw [hdiv N hN]
      congr 1
      push_cast
      ring

theorem rowOf_normalizepdf_self (h : NHArray) (i : ℕ)
    (hi : i < h.dbuffer.length) :
    rowOf (normalizepdf h i) i
      = (rowOf h i).map (fun e => ediv e (sumNx 0 (rowOf h i))) := by
  show (setIdx h.dbuffer i _).getD i [] = _
  rw [getD_setIdx_eq _ _ _ _ hi]
  rfl

theorem rowOf_normalizepdf_other (h : NHArray) (i j : ℕ) (hij : i ≠ j) :
    rowOf (normalizepdf h i) j = rowOf h j := by
  show (setIdx h.dbuffer i _).getD j [] = _
  exact getD_setIdx_ne _ _ _ _ _ hij

/-- The normalization loop maps each row in its window through the
unguarded division and leaves other rows alone. -/
theorem normFrom_rowOf : ∀ (k i0 : ℕ) (h : NHArray) (j : ℕ),
    i0 + k ≤ h.dbuffer.length →
    rowOf (normFrom h i0 k) j
      = if i0 ≤ j ∧ j < i0 + k
        then (rowOf h j).map (fun e => ediv e (sumNx 0 (rowOf h j)))
        else rowOf h j := by
  intro k
  induction k with
  | zero =>
    intro i0 h j _
    rw [if_neg (by omega)]
    rfl
  | succ m ih =>
    intro i0 h j hk
    show rowOf (normFrom (normalizepdf h i0) (i0 + 1) m) j = _
    have hi0 : i0 < h.dbuffer.length := by omega
    have hlen1 : (normalizepdf h i0).dbuffer.length = h.dbuffer.length :=
      setIdx_length _ _ _
    rw [ih (i0 + 1) (normalizepdf h i0) j (by rw [hlen1]; omega)]
    by_cases hji : j = i0
    · subst hji
      rw [if_neg (by omega), if_pos (by omega),
        rowOf_normalizepdf_self h j hi0]
    · have hother : rowOf (normalizepdf h i0) j = rowOf h j :=
        rowOf_normalizepdf_other h i0 j (fun hh => hji hh.symm)
      by_cases hin : i0 + 1 ≤ j ∧ j < i0 + 1 + m
      · rw [if_pos hin, if_pos (by omega), hother]
      · rw [if_neg hin, if_neg (by omega), hother]

theorem GetXRange_fst_of_normalized {h : NHArray} (prob : ℚ)
    (a b : EDouble) (hn : h.normalized = true) :
    (GetXRange h prob a b).1 = h := by
  simp [GetXRange, hn]

theorem UpdateNHArray_fst_of_normalized {h : NHArray} (a : PyArr)
    (hn : h.normalized = true) :
    (UpdateNHArray h a).1 = h := by
  simp [UpdateNHArray, hn]

/-- C6: after the first `getRange` call the `normalized` flag is set and
every variable that accumulated at least one sample has a row summing to 1;
no later `getRange` or `accumulate` changes the state again. -/
theorem first_getrange_normalizes_rows (xl xu : ℚ) (nbins elems : ℕ)
    (ss : List PyArr) (h : NHArray) (prob : ℚ) (xl0 xu0 : EDouble)
    (hnb : 1 ≤ nbins)
    (hupd : applyUpdates (CreateNHArray xl xu nbins elems) ss = (h, none)) :
    (GetXRange h prob xl0 xu0).1.normalized = true ∧
    (∀ i, i < elems → esum (rowOf h i) ≠ some 0 →
      esum (rowOf (GetXRange h prob xl0 xu0).1 i) = some 1) ∧
    (∀ prob2 a b, (GetXRange (GetXRange h prob xl0 xu0).1 prob2 a b).1
        = (GetXRange h prob xl0 xu0).1) ∧
    (∀ a, (UpdateNHArray (GetXRange h prob xl0 xu0).1 a).1
        = (GetXRange h prob xl0 xu0).1) := by
  obtain ⟨hInv, helems, -, -, -, -⟩ :=
    applyUpdates_inv ss _ h (EngineInv_create xl xu nbins elems hnb) hupd
  obtain ⟨hlen, hrows, hnat, hnorm, hm1, h1b⟩ := hInv
  have hfstnorm := GetXRange_fst_normalized h prob xl0 xu0
  refine ⟨hfstnorm, ?_, ?_, ?_⟩
  · intro i hi hne
    have hie : i < h.elems := by rw [helems]; exact hi
    have hfst : (GetXRange h prob xl0 xu0).1
        = { normFrom h 0 h.elems with normalized := true } := by
      simp [GetXRange, hnorm]
    rw [hfst]
    show esum (rowOf (normFrom h 0 h.elems) i) = some 1
    rw [normFrom_rowOf h.elems 0 h i (by omega), if_pos (by omega)]
    have hnatrow : ∀ e ∈ rowOf h i, ∃ n : ℕ, e = some ((n : ℕ) : ℚ) := by
      intro e he
      refine hnat (rowOf h i) ?_ e he
      show h.dbuffer.getD i [] ∈ h.dbuffer
      rw [List.getD_eq_getElem _ _ (by omega)]
      exact List.getElem_mem _
    obtain ⟨S, hsumNx, hfold, hdiv⟩ := natRow_sums (rowOf h i) hnatrow
    have hS0 : esum (rowOf h i) = some ((S : ℚ)) := by
      rw [esum, hfold 0]
      norm_num
    have hSne : S ≠ 0 := by
      intro h0
      apply hne
      rw [hS0, h0]
      norm_num
    have hN : sumNx 0 (rowOf h i) = (S : ℤ) := by
      rw [hsumNx 0]
      omega
    rw [hN, esum, hdiv (S : ℤ) (by exact_mod_cast hSne) 0]
    have : ((S : ℤ) : ℚ) = (S : ℚ) := by push_cast; rfl
    rw [this, div_self (by exact_mod_cast hSne)]
    norm_num
  · intro prob2 a b
    exact GetXRange_fst_of_normalized prob2 a b hfstnorm
  · intro a
    exact UpdateNHArray_fst_of_normalized a hfstnorm

/-- C6 witness: one sample for the single variable; after the first
`getRange` the flag is set and the row sums to 1. -/
theorem first_getrange_normalizes_rows_witness :
    (GetXRange (applyUpdates (CreateNHArray 0 10 11 1) [⟨1, [5]⟩]).1
      (1/5) none none).1.normalized = true ∧
    esum (rowOf (GetXRange (applyUpdates (CreateNHArray 0 10 11 1)
      [⟨1, [5]⟩]).1 (1/5) none none).1 0) = some 1 := by
  obtain ⟨hn, hrow, -, -⟩ := first_getrange_normalizes_rows 0 10 11 1
    [⟨1, [5]⟩] (applyUpdates (CreateNHArray 0 10 11 1) [⟨1, [5]⟩]).1
    (1/5) none none (by decide) (by decide)
  exact ⟨hn, hrow 0 (by decide) (by decide)⟩
